import Mathlib

/-!
Verification development for the StudyBuddy hybrid retrieval engine and its
frontend. The repository ships the engine only as documentation (README,
implementation guide, audit report): the Python module `rag.py` that the spec
describes is not part of the source tree, so the engine is modelled here from
the spec's own words. The frontend TypeScript (session context, file upload,
API client) is present in the source tree and is embedded directly.
-/

/-- Collection key, the unit of isolation: a (user id, course id) pair. -/
abbrev Key := String × String

/-- Chunk of an ingested document, per the spec's data model: it belongs to one
Document (identified by `docId` inside the Collection `owner`), carries its
position `chunkIdx`, source `page` and raw `text`. -/
structure Chunk where
  owner : Key
  docId : String
  title : String
  chunkIdx : Nat
  page : Nat
  text : String
  deriving DecidableEq, Repr

/-- Quality label attached to a retrieval result set. -/
inductive Quality where
  | high
  | medium
  | low
  | insufficient
  deriving DecidableEq, Repr

/-- Modelled from the spec: min-max normalization of one signal's candidate
scores to [0,1] over the candidate set (section 4.4; `rag.py` is missing from
the source tree). When all scores coincide the degenerate denominator is
guarded and every candidate gets score 1. -/
def minmaxNorm (xs : List (Chunk × ℚ)) : List (Chunk × ℚ) :=
  match xs.map Prod.snd with
  | [] => []
  | s :: ss =>
    let mn := ss.foldl min s
    let mx := ss.foldl max s
    xs.map (fun p => (p.1, if mn < mx then (p.2 - mn) / (mx - mn) else 1))

/-- Modelled from the spec: score of a chunk in a scored candidate list, with
a chunk absent from the list scoring 0 (section 4.4, absence is not
exclusion; `rag.py` is missing from the source tree). -/
def lookupScore (xs : List (Chunk × ℚ)) (c : Chunk) : ℚ :=
  match xs.find? (fun p => decide (p.1 = c)) with
  | some p => p.2
  | none => 0

/-- Modelled from the spec: the output ranking of fusion, descending by fused
score with ties broken by (document id, chunk index) (section 4.4; `rag.py` is
missing from the source tree). -/
def fusedRank (a b : Chunk × ℚ) : Prop :=
  b.2 < a.2 ∨ (a.2 = b.2 ∧ (a.1.docId, a.1.chunkIdx) ≤ (b.1.docId, b.1.chunkIdx))

instance : DecidableRel fusedRank := fun a b => by
  unfold fusedRank
  infer_instance

/-- Modelled from the spec: score fusion (section 4.4; `rag.py` is missing from
the source tree). Each signal is min-max normalized over its candidate set,
the candidate pool is the union of both sets, a missing signal scores 0 after
normalization, and the fused score is
`alpha * normalized_semantic + (1 - alpha) * normalized_lexical`. The output
is sorted descending by fused score with deterministic tie-breaking. -/
def fuse (alpha : ℚ) (semC lexC : List (Chunk × ℚ)) : List (Chunk × ℚ) :=
  let ns := minmaxNorm semC
  let nl := minmaxNorm lexC
  let pool := (semC.map Prod.fst ++ lexC.map Prod.fst).dedup
  (pool.map
    (fun c => (c, alpha * lookupScore ns c + (1 - alpha) * lookupScore nl c))).insertionSort
    fusedRank

/-- Modelled from the spec: the default fusion weight (semantic-leaning 0.7,
README "Retrieval Parameters"). -/
def defaultAlpha : ℚ := 7/10

/-- Modelled from the spec: the default minimum-similarity threshold (0.3,
README "Retrieval Parameters"). -/
def defaultThreshold : ℚ := 3/10

/-- Modelled from the spec: the quality assessor (section 4.6; `rag.py` is
missing from the source tree). It classifies the final result set from the top
fused score and the count of results above the minimum-similarity threshold:
`high` (top ≥ 0.6 and ≥ 3 above threshold), `medium` (top ≥ 0.3 and ≥ 1 above
threshold), `low` (results exist but below those bands), `insufficient` (zero
results or no indexed chunks at all). -/
def assessQuality (hasChunks : Bool) (scores : List ℚ) (threshold : ℚ) : Quality :=
  if hasChunks = false then .insufficient
  else
    match scores with
    | [] => .insufficient
    | top :: _ =>
      let cnt := scores.countP (fun s => decide (threshold < s))
      if 6/10 ≤ top ∧ 3 ≤ cnt then .high
      else if 3/10 ≤ top ∧ 1 ≤ cnt then .medium
      else .low

/-- Whitespace test on characters used by the segmenter's trimming; written
over `List Char` so that concrete runs reduce inside the kernel. -/
def isWsChar (c : Char) : Bool := c = ' ' || c = '\t' || c = '\n' || c = '\r'

/-- Drop of trailing characters satisfying `p`. -/
def dropTrailingCh (p : Char → Bool) (l : List Char) : List Char :=
  (l.reverse.dropWhile p).reverse

/-- Modelled from the spec: end-of-sentence punctuation recognized by the
Segmenter (section 4.1; `rag.py` is missing from the source tree). -/
def isSentEnd (c : Char) : Bool := c = '.' || c = '!' || c = '?'

/-- Modelled from the spec: split of a character stream into sentence pieces
at end-of-sentence punctuation followed by whitespace (section 4.1; `rag.py`
is missing from the source tree). The accumulator holds the current sentence
reversed. -/
def splitSentencesAux : List Char → List Char → List (List Char)
  | [], acc => if acc.isEmpty then [] else [acc.reverse]
  | c :: rest, acc =>
    if isSentEnd c then
      match rest with
      | [] => [(c :: acc).reverse]
      | d :: _ =>
        if isWsChar d then (c :: acc).reverse :: splitSentencesAux rest []
        else splitSentencesAux rest (c :: acc)
    else splitSentencesAux rest (c :: acc)

/-- Modelled from the spec: greedy packing of sentences into chunks of at most
`target` characters (a longer single sentence becomes its own chunk), with the
next chunk seeded by the `overlap`-character tail of the previous one for
continuity (section 4.1; `rag.py` is missing from the source tree). -/
def packSentences (target overlap : Nat) : List (List Char) → List Char → List (List Char)
  | [], cur => if cur.isEmpty then [] else [cur]
  | s :: rest, cur =>
    if cur.isEmpty then packSentences target overlap rest s
    else if cur.length + s.length ≤ target then packSentences target overlap rest (cur ++ s)
    else cur :: packSentences target overlap rest (cur.drop (cur.length - overlap) ++ s)

/-- Modelled from the spec: the Segmenter `semantic_chunk` (section 4.1 and
the implementation guide's `semantic_chunk(text, target_size, overlap)`;
`rag.py` is missing from the source tree). It is a pure function of the input
text and the two parameters; empty or whitespace-only input yields zero
chunks, and no produced chunk has empty text. -/
def semantic_chunk (text : String) (target overlap : Nat) : List String :=
  let trimmed := dropTrailingCh isWsChar (text.data.dropWhile isWsChar)
  ((packSentences target overlap (splitSentencesAux trimmed []) []).map
    (fun l => String.mk l)).filter (fun s => decide (s ≠ ""))

/-- Modelled from the spec: default target chunk size in characters
(implementation guide, `target_size=1000`). -/
def defaultChunkSize : Nat := 1000

/-- Modelled from the spec: default chunk overlap in characters
(implementation guide, `overlap=500`). -/
def defaultOverlap : Nat := 500

/-- Store of all Collections: the chunks indexed under each collection key. -/
def Store := Key → List Chunk

/-- Store with no ingested documents. -/
def emptyStore : Store := fun _ => []

/-- Ingest-time failures surfaced to the caller (spec section 7). -/
inductive IngestError where
  | emptyDocument
  deriving DecidableEq, Repr

/-- Modelled from the spec: the chunks extracted for one document from its
ordered page texts (data model, section 3; `rag.py` is missing from the
source tree). Each page is segmented separately, chunks carry their 1-based
source page and a document-wide chunk index, and they are tagged with the
owning Collection key. -/
def chunksOfDoc (key : Key) (docId title : String) (pages : List String) : List Chunk :=
  let pageTexts := (pages.enum.map (fun pt =>
    (semantic_chunk pt.2 defaultChunkSize defaultOverlap).map
      (fun s => (pt.1 + 1, s)))).flatten
  pageTexts.enum.map (fun pc =>
    { owner := key, docId := docId, title := title, chunkIdx := pc.1,
      page := pc.2.1, text := pc.2.2 })

/-- Modelled from the spec: ingest of one document (sections 6 and 7; `rag.py`
is missing from the source tree). An ingest that yields zero extractable
chunks fails with `EmptyDocumentError` and stores nothing; otherwise the
document's chunk set replaces any previous chunks of the same document inside
its own Collection only. -/
def ingest (st : Store) (key : Key) (docId title : String) (pages : List String) :
    Except IngestError Store :=
  let chunks := chunksOfDoc key docId title pages
  if chunks.isEmpty then .error .emptyDocument
  else .ok (fun k =>
    if k = key then (st k).filter (fun c => decide (c.docId ≠ docId)) ++ chunks
    else st k)

/-- Write operations of the engine boundary (spec section 6). -/
inductive EngineOp where
  | ingestDoc (key : Key) (docId title : String) (pages : List String)
  | deleteCollection (key : Key)

/-- Effect of one write operation on the store; a failed ingest leaves the
store unchanged (spec section 7, propagation policy). -/
def applyOp (st : Store) : EngineOp → Store
  | .ingestDoc key docId title pages =>
    match ingest st key docId title pages with
    | .ok st2 => st2
    | .error _ => st
  | .deleteCollection key => fun k => if k = key then [] else st k

/-- Store reached by running a sequence of write operations from the empty
store. -/
def runOps (ops : List EngineOp) : Store := ops.foldl applyOp emptyStore

/-- Ownership invariant of the data model: every chunk stored under a
collection key is owned by that key (its Document belongs to that
Collection). -/
def ownerInv (st : Store) : Prop := ∀ k : Key, ∀ c ∈ st k, c.owner = k

/-- Data-model invariant: chunk text is never empty in any Collection. -/
def textInv (st : Store) : Prop := ∀ k : Key, ∀ c ∈ st k, c.text ≠ ""

/-- Candidate surfaced by fusion: a chunk together with its fused score. -/
structure Cand where
  chunk : Chunk
  score : ℚ
  deriving DecidableEq, Repr

/-- Word splitter over characters used by the token-overlap similarity:
maximal runs of alphanumeric characters, lower-cased. -/
def wordsAux : List Char → List Char → List (List Char)
  | [], acc => if acc.isEmpty then [] else [acc.reverse]
  | c :: rest, acc =>
    if c.isAlphanum then wordsAux rest (c.toLower :: acc)
    else if acc.isEmpty then wordsAux rest []
    else acc.reverse :: wordsAux rest []

/-- Modelled from the spec: token set of a chunk text, used by the
token-overlap content-similarity fallback of the Diversity Selector
(section 4.5; `rag.py` is missing from the source tree). -/
def tokensOf (s : String) : List (List Char) := (wordsAux s.data []).dedup

/-- Modelled from the spec: token-overlap (Jaccard) content similarity
between two chunk texts (section 4.5; `rag.py` is missing from the source
tree). -/
def tokenSim (a b : String) : ℚ :=
  let ta := tokensOf a
  let tb := tokensOf b
  let inter := ta.filter (fun t => decide (t ∈ tb))
  let uni := (ta ++ tb).dedup
  if uni.length = 0 then 0 else (inter.length : ℚ) / (uni.length : ℚ)

/-- Modelled from the spec: the MMR objective of an unselected candidate
against the already-selected set,
`lambda * relevance(c) - (1 - lambda) * max_similarity(c, S)`
(section 4.5; `rag.py` is missing from the source tree). -/
def mmrObjective (lam : ℚ) (selected : List Cand) (c : Cand) : ℚ :=
  lam * c.score -
    (1 - lam) * ((selected.map (fun s => tokenSim c.chunk.text s.chunk.text)).foldl max 0)

/-- Extraction of a maximizer of `f` from a list, together with the remaining
elements; the earliest maximal element wins, keeping selection deterministic. -/
def extractMax (f : α → ℚ) : List α → Option (α × List α)
  | [] => none
  | a :: rest =>
    match extractMax f rest with
    | none => some (a, [])
    | some (b, others) => if f a < f b then some (b, a :: others) else some (a, rest)

/-- Modelled from the spec: MMR diversity selection (section 4.5; `rag.py` is
missing from the source tree): repeatedly move the pool candidate maximizing
the MMR objective into the selected set, until `k` results are chosen or the
pool runs out. -/
def mmrSelect (lam : ℚ) : Nat → List Cand → List Cand → List Cand
  | 0, _, _ => []
  | k + 1, selected, pool =>
    match extractMax (mmrObjective lam selected) pool with
    | none => []
    | some (c, rest) => c :: mmrSelect lam k (c :: selected) rest

/-- Modelled from the spec: default MMR relevance-diversity trade-off
(section 4.5, `lambda` default 0.7). -/
def defaultLambda : ℚ := 7/10

/-- Result of one retrieval: the ranked selected candidates and the overall
quality label. Ephemeral, per the data model. -/
structure RetrievalResult where
  results : List Cand
  quality : Quality

/-- Modelled from the spec: per-signal ranking used to cut the top-N candidate
set, descending by that signal's score. -/
def sigRank (a b : Chunk × ℚ) : Prop := b.2 ≤ a.2

instance : DecidableRel sigRank := fun a b => by
  unfold sigRank
  infer_instance

/-- Modelled from the spec: top-N candidate selection for one signal
(section 4.4, union of the top-N from each index; `rag.py` is missing from
the source tree). Stable sorting breaks ties by chunk insertion order. -/
def topNBy (score : Chunk → ℚ) (n : Nat) (chunks : List Chunk) : List (Chunk × ℚ) :=
  ((chunks.map (fun c => (c, score c))).insertionSort sigRank).take n

/-- Modelled from the spec: the hybrid retrieval pipeline `hybrid_retrieve`
(sections 4.2-4.6 and the implementation guide; `rag.py` is missing from the
source tree). The two per-signal scorers are passed in as the engine's scoring
signals (BM25 and embedding cosine similarity are external numeric signals
here; only their scores flow through fusion). A Collection with no chunks
yields an empty `insufficient` result instead of an error. -/
def hybrid_retrieve (semScore lexScore : String → Chunk → ℚ) (alpha lam threshold : ℚ)
    (k topN : Nat) (st : Store) (key : Key) (query : String) : RetrievalResult :=
  let chunks := st key
  if chunks.isEmpty then { results := [], quality := .insufficient }
  else
    let semC := topNBy (semScore query) topN chunks
    let lexC := topNBy (lexScore query) topN chunks
    let fused := fuse alpha semC lexC
    let cands := fused.map (fun p => { chunk := p.1, score := p.2 : Cand })
    let selected := mmrSelect lam k [] cands
    { results := selected,
      quality := assessQuality true (selected.map Cand.score) threshold }

/-- Modelled from the spec: default number of returned chunks (README,
`top_k` default 8). -/
def defaultK : Nat := 8

/-- Modelled from the spec: fusion candidate-pool size per signal
(section 4.4, top-N, e.g. top 30). -/
def defaultTopN : Nat := 30

/-- Code-point model of JavaScript strings used for the frontend embedding:
a string is the list of its code points as natural numbers. -/
abbrev JStr := List Nat

/-- Code points of a Lean string literal, for building concrete inputs. -/
def jstrOf (s : String) : JStr := s.data.map Char.toNat

/-- ASCII uppercase class (code points 65-90), the only characters moved by
`toLowerCase` in this ASCII model of the frontend strings. -/
def isUpperCode (c : Nat) : Bool := 65 ≤ c && c ≤ 90

/-- ASCII model of JavaScript `toLowerCase` on one code point. -/
def toLowerCode (c : Nat) : Nat := if isUpperCode c then c + 32 else c

/-- ASCII lowercase class (code points 97-122). -/
def isLowerCode (c : Nat) : Bool := 97 ≤ c && c ≤ 122

/-- ASCII digit class (code points 48-57). -/
def isDigitCode (c : Nat) : Bool := 48 ≤ c && c ≤ 57

/-- JavaScript whitespace class `\s` restricted to its ASCII members (tab,
line feed, vertical tab, form feed, carriage return, space), which also
drives `trim` in this model. -/
def isSpaceCode (c : Nat) : Bool := c = 32 || (9 ≤ c && c ≤ 13)

/-- JavaScript word class `\w`: ASCII letters, digits and underscore (code
point 95). -/
def isWordCode (c : Nat) : Bool := isUpperCode c || isLowerCode c || isDigitCode c || c = 95

/-- Character class `[\s_-]` collapsed to a hyphen by `slugify`; the hyphen is
code point 45. -/
def isSepCode (c : Nat) : Bool := isSpaceCode c || c = 95 || c = 45

/-- Embedding of the `replace(/[\s_-]+/g, "-")` step of `slugify`: every
maximal run of `[\s_-]` characters becomes a single hyphen. -/
def collapseSeps : JStr → JStr
  | [] => []
  | c :: rest =>
    let out := collapseSeps rest
    if isSepCode c then
      if out.head? = some 45 then out else 45 :: out
    else c :: out

/-- Drop of the trailing run of code points satisfying `p` (used for `trim`
and for the trailing part of `replace(/^-+|-+$/g, "")`). -/
def dropTrailing (p : Nat → Bool) : JStr → JStr
  | [] => []
  | c :: rest =>
    match dropTrailing p rest with
    | [] => if p c then [] else [c]
    | out => c :: out

/-- Embedding of `slugify` from `src/frontend/src/contexts/SessionContext.tsx`
(lines 17-24): lower-case, trim, delete every character outside `[\w\s-]`,
collapse every `[\s_-]+` run to a single hyphen, and strip leading and
trailing hyphens. -/
def slugify (l : JStr) : JStr :=
  let lowered := l.map toLowerCode
  let trimmed := dropTrailing isSpaceCode (lowered.dropWhile isSpaceCode)
  let kept := trimmed.filter (fun c => isWordCode c || isSpaceCode c || c == 45)
  let collapsed := collapseSeps kept
  dropTrailing (fun c => c == 45) (collapsed.dropWhile (fun c => c == 45))

/-- Embedding of `addCourse` from `SessionContext.tsx` (lines 34-39): the new
course's id is the slug of its name, and it is appended to the course list. -/
def addCourse (name : JStr) (courses : List (JStr × JStr)) : List (JStr × JStr) :=
  courses ++ [(slugify name, name)]

/-- Embedding of the `UploadedFile` entries held by the `FileUpload` component
(`src/unnamed/part_003`, lines 8-13). -/
structure UploadedFile where
  id : String
  name : String
  size : String
  uploadedAt : Nat
  deriving DecidableEq, Repr

/-- Local state of the `FileUpload` component: its `files` list and
`uploading` flag (`src/unnamed/part_003`, lines 21-22). -/
structure FileUploadState where
  files : List UploadedFile
  uploading : Bool
  deriving DecidableEq, Repr

/-- Requests the frontend API client (`src/unnamed/part_002`) can issue: it
exports exactly `ingestFile`, `sendChatMessage` and `getStats`; there is no
delete request. An ingest request carries the page texts of the uploaded
file as its payload. -/
inductive ApiRequest where
  | ingestFile (userId courseId title : String) (pages : List String)
  | sendChatMessage (userId courseId prompt mode : String)
  | getStats (userId courseId : String)
  deriving DecidableEq, Repr

/-- Embedding of `handleDelete` from the `FileUpload` component
(`src/unnamed/part_003`, lines 65-71): it filters the local files list by id
and does nothing else; the second component is the list of network requests
issued (none — the toast is a pure UI notification). -/
def handleDelete (id : String) (s : FileUploadState) : FileUploadState × List ApiRequest :=
  ({ s with files := s.files.filter (fun f => decide (f.id ≠ id)) }, [])

/-- Server-side effect of a frontend request sequence on the engine store:
only `ingestFile` writes (it posts to `/ingest`, whose server handler is the
spec-modelled `ingest`); chat and stats are read-only. -/
def applyRequests (st : Store) (reqs : List ApiRequest) : Store :=
  reqs.foldl (fun acc r =>
    match r with
    | .ingestFile u c t pages => applyOp acc (.ingestDoc (u, c) t t pages)
    | .sendChatMessage _ _ _ _ => acc
    | .getStats _ _ => acc) st

/-- Concrete collection key used by the witnesses. -/
def sampleKeyA : Key := ("alice", "cs101")

/-- Second, distinct concrete collection key used by the witnesses. -/
def sampleKeyB : Key := ("bob", "cs101")

/-- Concrete chunk used by the witnesses. -/
def sampleChunk (i : Nat) : Chunk :=
  { owner := sampleKeyA, docId := "doc1", title := "Doc 1", chunkIdx := i, page := 1,
    text := "sample text" }

/-- Concrete three-candidate pool used by the witnesses. -/
def samplePool : List Cand :=
  [{ chunk := sampleChunk 0, score := 9/10 },
   { chunk := sampleChunk 1, score := 1/2 },
   { chunk := sampleChunk 2, score := 1/4 }]

/-- Concrete ingest history used by the witnesses: one document in each of two
distinct collections. -/
def sampleOps : List EngineOp :=
  [.ingestDoc sampleKeyA "d1" "Notes" ["Recursion is fun. Base case matters."],
   .ingestDoc sampleKeyB "d2" "Other" ["Trees are tall. Roots go deep."]]

/-- Concrete semantic scoring signal used by the witnesses. -/
def constSem : String → Chunk → ℚ := fun _ c => (c.chunkIdx : ℚ) + 1

/-- Concrete lexical scoring signal used by the witnesses. -/
def constLex : String → Chunk → ℚ := fun _ _ => 1

/-- Concrete semantic candidate list used by the witnesses. -/
def sampleSemC : List (Chunk × ℚ) := [(sampleChunk 0, 2), (sampleChunk 1, 5)]

/-- Concrete lexical candidate list used by the witnesses. -/
def sampleLexC : List (Chunk × ℚ) := [(sampleChunk 0, 1)]

theorem foldl_min_le_init (l : List ℚ) (a : ℚ) : l.foldl min a ≤ a := by
  induction l generalizing a with
  | nil => simp
  | cons b l ih =>
    calc (b :: l).foldl min a = l.foldl min (min a b) := by simp [List.foldl]
    _ ≤ min a b := ih (min a b)
    _ ≤ a := min_le_left a b

theorem foldl_min_le_mem (l : List ℚ) (a x : ℚ) (hx : x ∈ l) : l.foldl min a ≤ x := by
  induction l generalizing a with
  | nil => cases hx
  | cons b l ih =>
    rcases List.mem_cons.mp hx with h | h
    · subst h
      calc (x :: l).foldl min a = l.foldl min (min a x) := by simp [List.foldl]
      _ ≤ min a x := foldl_min_le_init l (min a x)
      _ ≤ x := min_le_right a x
    · simpa [List.foldl] using ih (min a b) h

theorem le_foldl_max_init (l : List ℚ) (a : ℚ) : a ≤ l.foldl max a := by
  induction l generalizing a with
  | nil => simp
  | cons b l ih =>
    calc a ≤ max a b := le_max_left a b
    _ ≤ l.foldl max (max a b) := ih (max a b)
    _ = (b :: l).foldl max a := by simp [List.foldl]

theorem le_foldl_max_mem (l : List ℚ) (a x : ℚ) (hx : x ∈ l) : x ≤ l.foldl max a := by
  induction l generalizing a with
  | nil => cases hx
  | cons b l ih =>
    rcases List.mem_cons.mp hx with h | h
    · subst h
      calc x ≤ max a x := le_max_right a x
      _ ≤ l.foldl max (max a x) := le_foldl_max_init l (max a x)
      _ = (x :: l).foldl max a := by simp [List.foldl]
    · simpa [List.foldl] using ih (max a b) h

theorem minmaxNorm_mem_unit (xs : List (Chunk × ℚ)) :
    ∀ p ∈ minmaxNorm xs, 0 ≤ p.2 ∧ p.2 ≤ 1 := by
  intro p hp
  unfold minmaxNorm at hp
  cases hsnd : xs.map Prod.snd with
  | nil => rw [hsnd] at hp; cases hp
  | cons s ss =>
    rw [hsnd] at hp
    simp only [List.mem_map] at hp
    obtain ⟨q, hq, hpe⟩ := hp
    have hqmem : q.2 ∈ xs.map Prod.snd := List.mem_map_of_mem Prod.snd hq
    rw [hsnd] at hqmem
    set mn := ss.foldl min s with hmn
    set mx := ss.foldl max s with hmx
    have hlo : mn ≤ q.2 := by
      rcases List.mem_cons.mp hqmem with h | h
      · rw [h]; exact foldl_min_le_init ss s
      · exact foldl_min_le_mem ss s q.2 h
    have hhi : q.2 ≤ mx := by
      rcases List.mem_cons.mp hqmem with h | h
      · rw [h]; exact le_foldl_max_init ss s
      · exact le_foldl_max_mem ss s q.2 h
    subst hpe
    by_cases hcmp : mn < mx
    · simp only [hcmp, if_pos]
      constructor
      · exact div_nonneg (by linarith) (by linarith)
      · rw [div_le_one (by linarith)]
        linarith
    · simp only [hcmp, if_neg, not_false_iff]
      norm_num

theorem minmaxNorm_map_fst (xs : List (Chunk × ℚ)) :
    (minmaxNorm xs).map Prod.fst = xs.map Prod.fst := by
  unfold minmaxNorm
  cases hsnd : xs.map Prod.snd with
  | nil =>
    have : xs = [] := List.map_eq_nil_iff.mp hsnd
    simp [this]
  | cons s ss => simp

theorem lookupScore_of_not_mem (xs : List (Chunk × ℚ)) (c : Chunk)
    (h : c ∉ xs.map Prod.fst) : lookupScore xs c = 0 := by
  unfold lookupScore
  have : xs.find? (fun p => decide (p.1 = c)) = none := by
    rw [List.find?_eq_none]
    intro p hp
    simp only [decide_eq_true_eq]
    intro he
    exact h (he ▸ List.mem_map_of_mem Prod.fst hp)
  rw [this]

theorem lookupScore_unit (xs : List (Chunk × ℚ)) (c : Chunk) :
    0 ≤ lookupScore (minmaxNorm xs) c ∧ lookupScore (minmaxNorm xs) c ≤ 1 := by
  unfold lookupScore
  cases hf : (minmaxNorm xs).find? (fun p => decide (p.1 = c)) with
  | none => norm_num
  | some p =>
    have hp : p ∈ minmaxNorm xs := List.mem_of_find?_eq_some hf
    exact minmaxNorm_mem_unit xs p hp

theorem mem_fuse_iff (alpha : ℚ) (semC lexC : List (Chunk × ℚ)) (c : Chunk) (v : ℚ) :
    (c, v) ∈ fuse alpha semC lexC ↔
      ((c ∈ semC.map Prod.fst ∨ c ∈ lexC.map Prod.fst) ∧
        v = alpha * lookupScore (minmaxNorm semC) c
          + (1 - alpha) * lookupScore (minmaxNorm lexC) c) := by
  unfold fuse
  rw [(List.perm_insertionSort fusedRank _).mem_iff]
  simp only [List.mem_map, List.mem_dedup, List.mem_append, Prod.mk.injEq]
  constructor
  · rintro ⟨c2, hc2, he1, he2⟩
    subst he1
    exact ⟨hc2, he2.symm⟩
  · rintro ⟨hc, hv⟩
    exact ⟨c, hc, rfl, hv.symm⟩

/-- C1: for every query, score fusion gives each candidate chunk the fused
score `alpha * normalized_semantic + (1 - alpha) * normalized_lexical`
(each signal min-max normalized over its candidate set), with `alpha`
defaulting to 0.7; a chunk in only one candidate set is still included, and
its missing signal scores 0 after normalization. -/
theorem fusion_score_formula (alpha : ℚ) (semC lexC : List (Chunk × ℚ)) :
    (∀ c : Chunk, (∃ v, (c, v) ∈ fuse alpha semC lexC) ↔
      (c ∈ semC.map Prod.fst ∨ c ∈ lexC.map Prod.fst)) ∧
    (∀ c v, (c, v) ∈ fuse alpha semC lexC →
      v = alpha * lookupScore (minmaxNorm semC) c
        + (1 - alpha) * lookupScore (minmaxNorm lexC) c) ∧
    (∀ c : Chunk, c ∉ semC.map Prod.fst → lookupScore (minmaxNorm semC) c = 0) ∧
    (∀ c : Chunk, c ∉ lexC.map Prod.fst → lookupScore (minmaxNorm lexC) c = 0) ∧
    defaultAlpha = 7/10 := by
  refine ⟨?_, ?_, ?_, ?_, rfl⟩
  · intro c
    constructor
    · rintro ⟨v, hv⟩
      exact ((mem_fuse_iff alpha semC lexC c v).mp hv).1
    · intro hc
      exact ⟨_, (mem_fuse_iff alpha semC lexC c _).mpr ⟨hc, rfl⟩⟩
  · intro c v hv
    exact ((mem_fuse_iff alpha semC lexC c v).mp hv).2
  · intro c hc
    apply lookupScore_of_not_mem
    rw [minmaxNorm_map_fst]
    exact hc
  · intro c hc
    apply lookupScore_of_not_mem
    rw [minmaxNorm_map_fst]
    exact hc

/-- C8: after fusion-stage min-max normalization every per-candidate
normalized score lies in [0,1], and for every alpha in [0,1] every fused
score lies in [0,1]. -/
theorem fusion_scores_unit (alpha : ℚ) (semC lexC : List (Chunk × ℚ))
    (h0 : 0 ≤ alpha) (h1 : alpha ≤ 1) :
    (∀ p ∈ minmaxNorm semC, 0 ≤ p.2 ∧ p.2 ≤ 1) ∧
    (∀ p ∈ minmaxNorm lexC, 0 ≤ p.2 ∧ p.2 ≤ 1) ∧
    (∀ p ∈ fuse alpha semC lexC, 0 ≤ p.2 ∧ p.2 ≤ 1) := by
  refine ⟨minmaxNorm_mem_unit semC, minmaxNorm_mem_unit lexC, ?_⟩
  rintro ⟨c, v⟩ hp
  obtain ⟨-, hv⟩ := (mem_fuse_iff alpha semC lexC c v).mp hp
  obtain ⟨hs0, hs1⟩ := lookupScore_unit semC c
  obtain ⟨hl0, hl1⟩ := lookupScore_unit lexC c
  have hb0 : (0:ℚ) ≤ 1 - alpha := by linarith
  constructor
  · show 0 ≤ v
    rw [hv]
    have := mul_nonneg h0 hs0
    have := mul_nonneg hb0 hl0
    linarith
  · show v ≤ 1
    rw [hv]
    have h2 := mul_le_mul_of_nonneg_left hs1 h0
    have h3 := mul_le_mul_of_nonneg_left hl1 hb0
    linarith

theorem assessQuality_cons (top : ℚ) (rest : List ℚ) (threshold : ℚ) :
    assessQuality true (top :: rest) threshold =
      (if 6/10 ≤ top ∧ 3 ≤ (top :: rest).countP (fun s => decide (threshold < s)) then .high
       else if 3/10 ≤ top ∧ 1 ≤ (top :: rest).countP (fun s => decide (threshold < s)) then
         .medium
       else .low) := rfl

/-- C5: the quality assessor labels a final result set `high` exactly when
the top fused score is at least 0.6 and at least 3 results exceed the
minimum-similarity threshold (default 0.3); `medium` when, short of that, the
top score is at least 0.3 and at least 1 result exceeds the threshold; `low`
when results exist but fall below those bands; and `insufficient` when there
are zero results or no indexed chunks at all. -/
theorem quality_bands (hasChunks : Bool) (scores : List ℚ) (threshold : ℚ) :
    (assessQuality hasChunks scores threshold = .insufficient ↔
      (hasChunks = false ∨ scores = [])) ∧
    (∀ top rest, hasChunks = true → scores = top :: rest →
      ((assessQuality hasChunks scores threshold = .high ↔
          6/10 ≤ top ∧ 3 ≤ scores.countP (fun s => decide (threshold < s))) ∧
       (assessQuality hasChunks scores threshold = .medium ↔
          ¬(6/10 ≤ top ∧ 3 ≤ scores.countP (fun s => decide (threshold < s))) ∧
          (3/10 ≤ top ∧ 1 ≤ scores.countP (fun s => decide (threshold < s)))) ∧
       (assessQuality hasChunks scores threshold = .low ↔
          ¬(6/10 ≤ top ∧ 3 ≤ scores.countP (fun s => decide (threshold < s))) ∧
          ¬(3/10 ≤ top ∧ 1 ≤ scores.countP (fun s => decide (threshold < s)))))) ∧
    defaultThreshold = 3/10 := by
  refine ⟨?_, ?_, rfl⟩
  · cases hasChunks with
    | false => simp [assessQuality]
    | true =>
      cases scores with
      | nil => simp [assessQuality]
      | cons top rest =>
        rw [assessQuality_cons]
        constructor
        · intro h
          exfalso
          split at h
          · simp at h
          · split at h
            · simp at h
            · simp at h
        · rintro (h | h)
          · simp at h
          · simp at h
  · intro top rest hhc hsc
    subst hhc
    subst hsc
    rw [assessQuality_cons]
    by_cases hH : 6/10 ≤ top ∧ 3 ≤ (top :: rest).countP (fun s => decide (threshold < s))
    · rw [if_pos hH]
      refine ⟨⟨fun _ => hH, fun _ => rfl⟩, ?_, ?_⟩
      · constructor
        · intro h; simp at h
        · rintro ⟨hnH, -⟩; exact absurd hH hnH
      · constructor
        · intro h; simp at h
        · rintro ⟨hnH, -⟩; exact absurd hH hnH
    · rw [if_neg hH]
      by_cases hM : 3/10 ≤ top ∧ 1 ≤ (top :: rest).countP (fun s => decide (threshold < s))
      · rw [if_pos hM]
        refine ⟨?_, ⟨fun _ => ⟨hH, hM⟩, fun _ => rfl⟩, ?_⟩
        · constructor
          · intro h; simp at h
          · intro h; exact absurd h hH
        · constructor
          · intro h; simp at h
          · rintro ⟨-, hnM⟩; exact absurd hM hnM
      · rw [if_neg hM]
        refine ⟨?_, ?_, fun _ => ⟨hH, hM⟩, fun _ => rfl⟩
        · constructor
          · intro h; simp at h
          · intro h; exact absurd h hH
        · constructor
          · intro h; simp at h
          · rintro ⟨-, hMc⟩; exact absurd hMc hM

theorem extractMax_eq_none {α : Type} (f : α → ℚ) (l : List α) :
    extractMax f l = none ↔ l = [] := by
  cases l with
  | nil => simp [extractMax]
  | cons a rest =>
    constructor
    · intro h
      exfalso
      cases hx : extractMax f rest with
      | none => simp [extractMax, hx] at h
      | some pr =>
        obtain ⟨b, others⟩ := pr
        simp only [extractMax, hx] at h
        split at h <;> simp at h
    · intro h
      exact (List.cons_ne_nil a rest h).elim

theorem extractMax_perm {α : Type} (f : α → ℚ) (l : List α) :
    ∀ a rest, extractMax f l = some (a, rest) → l.Perm (a :: rest) := by
  induction l with
  | nil => intro a rest h; simp [extractMax] at h
  | cons x xs ih =>
    intro a rest h
    cases hx : extractMax f xs with
    | none =>
      have hxs : xs = [] := (extractMax_eq_none f xs).mp hx
      subst hxs
      simp only [extractMax, hx, Option.some.injEq, Prod.mk.injEq] at h
      obtain ⟨ha, hb⟩ := h
      subst ha
      subst hb
      exact List.Perm.refl _
    | some pr =>
      obtain ⟨b, others⟩ := pr
      have hperm : xs.Perm (b :: others) := ih b others hx
      simp only [extractMax, hx] at h
      split at h
      · simp only [Option.some.injEq, Prod.mk.injEq] at h
        obtain ⟨ha, hb⟩ := h
        subst ha
        subst hb
        exact (hperm.cons x).trans (List.Perm.swap b x others)
      · simp only [Option.some.injEq, Prod.mk.injEq] at h
        obtain ⟨ha, hb⟩ := h
        subst ha
        subst hb
        exact List.Perm.refl _

theorem mmrSelect_perm_of_le (lam : ℚ) :
    ∀ (k : Nat) (selected pool : List Cand), pool.length ≤ k →
      (mmrSelect lam k selected pool).Perm pool := by
  intro k
  induction k with
  | zero =>
    intro sel pool h
    have : pool = [] := List.length_eq_zero.mp (Nat.le_zero.mp h)
    subst this
    simp [mmrSelect]
  | succ k ih =>
    intro sel pool h
    simp only [mmrSelect]
    cases hx : extractMax (mmrObjective lam sel) pool with
    | none =>
      have : pool = [] := (extractMax_eq_none _ pool).mp hx
      subst this
      exact List.Perm.refl _
    | some pr =>
      obtain ⟨c, rest⟩ := pr
      have hperm := extractMax_perm _ pool c rest hx
      have hlen : rest.length ≤ k := by
        have hl := hperm.length_eq
        simp only [List.length_cons] at hl
        omega
      exact ((ih (c :: sel) rest hlen).cons c).trans hperm.symm

theorem mmrSelect_subset (lam : ℚ) :
    ∀ (k : Nat) (selected pool : List Cand), ∀ c ∈ mmrSelect lam k selected pool, c ∈ pool := by
  intro k
  induction k with
  | zero => intro sel pool c hc; simp [mmrSelect] at hc
  | succ k ih =>
    intro sel pool c hc
    cases hx : extractMax (mmrObjective lam sel) pool with
    | none => simp [mmrSelect, hx] at hc
    | some pr =>
      obtain ⟨b, rest⟩ := pr
      simp only [mmrSelect, hx, List.mem_cons] at hc
      have hperm := extractMax_perm _ pool b rest hx
      rcases hc with h | h
      · rw [h]
        exact hperm.mem_iff.mpr (List.mem_cons_self b rest)
      · exact hperm.mem_iff.mpr (List.mem_cons_of_mem b (ih (b :: sel) rest c h))

/-- C6: when the candidate pool has fewer than `k` members, MMR selection
returns exactly the pool members (a permutation of the pool: all of them,
ranked, no padding with empty or duplicate entries); in particular its output
length equals the pool size, as in the k=5 versus 3 chunks scenario. -/
theorem mmr_small_pool (lam : ℚ) (k : Nat) (pool : List Cand)
    (h : pool.length < k) :
    (mmrSelect lam k [] pool).Perm pool ∧
    (mmrSelect lam k [] pool).length = pool.length := by
  have hle : pool.length ≤ k := Nat.le_of_lt h
  have hperm := mmrSelect_perm_of_le lam k [] pool hle
  exact ⟨hperm, hperm.length_eq⟩

/-- C3: retrieval against a Collection holding zero chunks returns the soft
`insufficient` result with an empty result list; `hybrid_retrieve` is a total
function, so no error is raised on this path. -/
theorem retrieve_empty_collection (semScore lexScore : String → Chunk → ℚ)
    (alpha lam threshold : ℚ) (k topN : Nat) (st : Store) (key : Key) (q : String)
    (h : st key = []) :
    (hybrid_retrieve semScore lexScore alpha lam threshold k topN st key q).results = [] ∧
    (hybrid_retrieve semScore lexScore alpha lam threshold k topN st key q).quality =
      .insufficient := by
  unfold hybrid_retrieve
  rw [h]
  simp

theorem topNBy_fst_mem (score : Chunk → ℚ) (n : Nat) (chunks : List Chunk) :
    ∀ p ∈ topNBy score n chunks, p.1 ∈ chunks := by
  intro p hp
  unfold topNBy at hp
  have hp2 := List.take_subset n _ hp
  have hp3 := (List.perm_insertionSort sigRank _).mem_iff.mp hp2
  obtain ⟨c, hc, he⟩ := List.mem_map.mp hp3
  rw [← he]
  exact hc

theorem retrieve_results_sub (semScore lexScore : String → Chunk → ℚ)
    (alpha lam threshold : ℚ) (k topN : Nat) (st : Store) (key : Key) (q : String) :
    ∀ r ∈ (hybrid_retrieve semScore lexScore alpha lam threshold k topN st key q).results,
      r.chunk ∈ st key := by
  intro r hr
  simp only [hybrid_retrieve] at hr
  split at hr
  · simp at hr
  · have hc := mmrSelect_subset lam k [] _ r hr
    obtain ⟨p, hp, he⟩ := List.mem_map.mp hc
    obtain ⟨c, v⟩ := p
    obtain ⟨hcand, -⟩ := (mem_fuse_iff alpha _ _ c v).mp hp
    have hcc : r.chunk = c := by rw [← he]
    rw [hcc]
    rcases hcand with h | h
    · obtain ⟨q2, hq2, he2⟩ := List.mem_map.mp h
      rw [← he2]
      exact topNBy_fst_mem _ _ _ q2 hq2
    · obtain ⟨q2, hq2, he2⟩ := List.mem_map.mp h
      rw [← he2]
      exact topNBy_fst_mem _ _ _ q2 hq2

theorem chunksOfDoc_owner (key : Key) (docId title : String) (pages : List String) :
    ∀ c ∈ chunksOfDoc key docId title pages, c.owner = key := by
  intro c hc
  simp only [chunksOfDoc] at hc
  obtain ⟨pc, hpc, he⟩ := List.mem_map.mp hc
  rw [← he]

theorem semantic_chunk_ne_empty (t : String) (a b : Nat) :
    ∀ s ∈ semantic_chunk t a b, s ≠ "" := by
  intro s hs
  simp only [semantic_chunk] at hs
  have h2 := List.mem_filter.mp hs
  simpa using h2.2

theorem chunksOfDoc_text_ne (key : Key) (docId title : String) (pages : List String) :
    ∀ c ∈ chunksOfDoc key docId title pages, c.text ≠ "" := by
  intro c hc
  simp only [chunksOfDoc] at hc
  obtain ⟨pc, hpc, he⟩ := List.mem_map.mp hc
  have hsnd : pc.2 ∈ ((pages.enum.map (fun pt =>
      (semantic_chunk pt.2 defaultChunkSize defaultOverlap).map
        (fun s => (pt.1 + 1, s)))).flatten) := by
    have := List.mem_map_of_mem Prod.snd hpc
    rwa [List.enum_map_snd] at this
  obtain ⟨inner, hinner, hmem⟩ := List.mem_flatten.mp hsnd
  obtain ⟨pt, hpt, hin⟩ := List.mem_map.mp hinner
  rw [← hin] at hmem
  obtain ⟨s, hsmem, hse⟩ := List.mem_map.mp hmem
  have hne := semantic_chunk_ne_empty pt.2 defaultChunkSize defaultOverlap s hsmem
  have htext : c.text = s := by
    rw [← he]
    simp only []
    rw [← hse]
  rw [htext]
  exact hne

theorem applyOp_ingest_eq (st : Store) (key : Key) (docId title : String)
    (pages : List String) :
    applyOp st (.ingestDoc key docId title pages) =
      if (chunksOfDoc key docId title pages).isEmpty then st
      else fun k =>
        if k = key then
          (st k).filter (fun c => decide (c.docId ≠ docId)) ++ chunksOfDoc key docId title pages
        else st k := by
  by_cases hce : (chunksOfDoc key docId title pages).isEmpty
  · simp [applyOp, ingest, hce]
  · simp [applyOp, ingest, hce]

theorem ownerInv_applyOp (st : Store) (op : EngineOp) (h : ownerInv st) :
    ownerInv (applyOp st op) := by
  cases op with
  | ingestDoc key docId title pages =>
    rw [applyOp_ingest_eq]
    by_cases hce : (chunksOfDoc key docId title pages).isEmpty
    · rw [if_pos hce]
      exact h
    · rw [if_neg hce]
      intro k c hc
      have hc2 : c ∈ (if k = key then
          (st k).filter (fun c => decide (c.docId ≠ docId)) ++
            chunksOfDoc key docId title pages
        else st k) := hc
      by_cases hk : k = key
      · subst hk
        rw [if_pos rfl] at hc2
        rcases List.mem_append.mp hc2 with h2 | h2
        · exact h k c (List.mem_of_mem_filter h2)
        · exact chunksOfDoc_owner k docId title pages c h2
      · rw [if_neg hk] at hc2
        exact h k c hc2
  | deleteCollection key =>
    intro k c hc
    have hc2 : c ∈ (if k = key then ([] : List Chunk) else st k) := hc
    by_cases hk : k = key
    · rw [if_pos hk] at hc2
      cases hc2
    · rw [if_neg hk] at hc2
      exact h k c hc2

theorem textInv_applyOp (st : Store) (op : EngineOp) (h : textInv st) :
    textInv (applyOp st op) := by
  cases op with
  | ingestDoc key docId title pages =>
    rw [applyOp_ingest_eq]
    by_cases hce : (chunksOfDoc key docId title pages).isEmpty
    · rw [if_pos hce]
      exact h
    · rw [if_neg hce]
      intro k c hc
      have hc2 : c ∈ (if k = key then
          (st k).filter (fun c => decide (c.docId ≠ docId)) ++
            chunksOfDoc key docId title pages
        else st k) := hc
      by_cases hk : k = key
      · subst hk
        rw [if_pos rfl] at hc2
        rcases List.mem_append.mp hc2 with h2 | h2
        · exact h k c (List.mem_of_mem_filter h2)
        · exact chunksOfDoc_text_ne k docId title pages c h2
      · rw [if_neg hk] at hc2
        exact h k c hc2
  | deleteCollection key =>
    intro k c hc
    have hc2 : c ∈ (if k = key then ([] : List Chunk) else st k) := hc
    by_cases hk : k = key
    · rw [if_pos hk] at hc2
      cases hc2
    · rw [if_neg hk] at hc2
      exact h k c hc2

theorem ownerInv_empty : ownerInv emptyStore := by
  intro k c hc
  cases hc

theorem ownerInv_foldl (ops : List EngineOp) :
    ∀ st : Store, ownerInv st → ownerInv (ops.foldl applyOp st) := by
  induction ops with
  | nil => intro st h; exact h
  | cons op ops ih => intro st h; exact ih _ (ownerInv_applyOp st op h)

theorem ownerInv_runOps (ops : List EngineOp) : ownerInv (runOps ops) :=
  ownerInv_foldl ops emptyStore ownerInv_empty

theorem textInv_empty : textInv emptyStore := by
  intro k c hc
  cases hc

theorem textInv_foldl (ops : List EngineOp) :
    ∀ st : Store, textInv st → textInv (ops.foldl applyOp st) := by
  induction ops with
  | nil => intro st h; exact h
  | cons op ops ih => intro st h; exact ih _ (textInv_applyOp st op h)

theorem textInv_runOps (ops : List EngineOp) : textInv (runOps ops) :=
  textInv_foldl ops emptyStore textInv_empty

/-- C2: a retrieval issued against Collection A searches only the chunks
stored under A's key, and never returns a chunk whose owning Document belongs
to a different Collection B. -/
theorem retrieval_isolation (ops : List EngineOp) (semScore lexScore : String → Chunk → ℚ)
    (alpha lam threshold : ℚ) (k topN : Nat) (A B : Key) (q : String) (hAB : A ≠ B) :
    ∀ r ∈ (hybrid_retrieve semScore lexScore alpha lam threshold k topN
        (runOps ops) A q).results,
      r.chunk ∈ runOps ops A ∧ r.chunk.owner = A ∧ r.chunk.owner ≠ B := by
  intro r hr
  have hmem := retrieve_results_sub semScore lexScore alpha lam threshold k topN
    (runOps ops) A q r hr
  have howner := ownerInv_runOps ops A r.chunk hmem
  exact ⟨hmem, howner, fun hB => hAB (howner.symm.trans hB)⟩

/-- C4: an ingest whose input yields zero extractable chunks fails with
`EmptyDocumentError` and leaves the store untouched, so the document is not
stored or indexed; consequently no chunk with empty text exists in any
Collection of any reachable store. -/
theorem empty_document_rejected (st : Store) (key : Key) (docId title : String)
    (pages : List String) (h : chunksOfDoc key docId title pages = []) :
    ingest st key docId title pages = .error .emptyDocument ∧
    applyOp st (.ingestDoc key docId title pages) = st ∧
    (∀ ops : List EngineOp, ∀ k : Key, ∀ c ∈ runOps ops k, c.text ≠ "") := by
  have hing : ingest st key docId title pages = .error .emptyDocument := by
    simp only [ingest, h]
    rfl
  refine ⟨hing, ?_, ?_⟩
  · simp only [applyOp, hing]
  · intro ops
    exact textInv_runOps ops

/-- C7: the Segmenter is deterministic: it is a pure function of the input
text and the chunk-size and overlap parameters, so two runs on identical
inputs produce identical chunk sequences. -/
theorem segmenter_deterministic (t1 t2 : String) (target overlap : Nat) (h : t1 = t2) :
    semantic_chunk t1 target overlap = semantic_chunk t2 target overlap := by
  rw [h]

/-- Witness for C7: two runs of the Segmenter on the same concrete text and
parameters produce equal output. -/
theorem segmenter_deterministic_witness :
    ("Recursion is fun. Base case matters." : String) =
      "Recursion is fun. Base case matters." ∧
    semantic_chunk "Recursion is fun. Base case matters." 25 5 =
      semantic_chunk "Recursion is fun. Base case matters." 25 5 :=
  ⟨rfl, segmenter_deterministic "Recursion is fun. Base case matters."
    "Recursion is fun. Base case matters." 25 5 rfl⟩

/-- C10: deleting a file in the FileUpload component only filters the local
files list by id; it flips no other local state, issues no network request
(so the ingested chunks on the server are untouched), and the API client
offers no delete operation at all. -/
theorem handleDelete_frame (id : String) (s : FileUploadState) :
    (handleDelete id s).1.files = s.files.filter (fun f => decide (f.id ≠ id)) ∧
    (handleDelete id s).1.uploading = s.uploading ∧
    (handleDelete id s).2 = [] ∧
    (∀ srv : Store, applyRequests srv (handleDelete id s).2 = srv) ∧
    (∀ r : ApiRequest,
      (∃ u c t p, r = .ingestFile u c t p) ∨
      (∃ u c pr m, r = .sendChatMessage u c pr m) ∨
      (∃ u c, r = .getStats u c)) := by
  refine ⟨rfl, rfl, rfl, fun srv => rfl, ?_⟩
  intro r
  cases r with
  | ingestFile u c t p => exact Or.inl ⟨u, c, t, p, rfl⟩
  | sendChatMessage u c pr m => exact Or.inr (Or.inl ⟨u, c, pr, m, rfl⟩)
  | getStats u c => exact Or.inr (Or.inr ⟨u, c, rfl⟩)

/-- Witness for C3: retrieval against the empty store returns the empty
`insufficient` result. -/
theorem retrieve_empty_collection_witness :
    emptyStore sampleKeyA = [] ∧
    ((hybrid_retrieve constSem constLex defaultAlpha defaultLambda defaultThreshold
        defaultK defaultTopN emptyStore sampleKeyA "recursion").results = [] ∧
     (hybrid_retrieve constSem constLex defaultAlpha defaultLambda defaultThreshold
        defaultK defaultTopN emptyStore sampleKeyA "recursion").quality = .insufficient) :=
  ⟨rfl, retrieve_empty_collection constSem constLex defaultAlpha defaultLambda
    defaultThreshold defaultK defaultTopN emptyStore sampleKeyA "recursion" rfl⟩

/-- Witness for C4: ingesting a document whose single page is empty yields
zero chunks, fails with `EmptyDocumentError`, and stores nothing. -/
theorem empty_document_rejected_witness :
    chunksOfDoc sampleKeyA "d0" "Empty" [""] = [] ∧
    (ingest emptyStore sampleKeyA "d0" "Empty" [""] = .error .emptyDocument ∧
     applyOp emptyStore (.ingestDoc sampleKeyA "d0" "Empty" [""]) = emptyStore ∧
     (∀ ops : List EngineOp, ∀ k : Key, ∀ c ∈ runOps ops k, c.text ≠ "")) :=
  ⟨by decide, empty_document_rejected emptyStore sampleKeyA "d0" "Empty" [""] (by decide)⟩

/-- Witness for C6: a concrete pool of 3 candidates with k = 5 returns
exactly the 3 pool members. -/
theorem mmr_small_pool_witness :
    samplePool.length < 5 ∧
    ((mmrSelect defaultLambda 5 [] samplePool).Perm samplePool ∧
     (mmrSelect defaultLambda 5 [] samplePool).length = samplePool.length) :=
  ⟨by decide, mmr_small_pool defaultLambda 5 samplePool (by decide)⟩

/-- Witness for C2: with one document ingested into each of two distinct
collections, retrieval against the first returns only chunks it owns. -/
theorem retrieval_isolation_witness :
    sampleKeyA ≠ sampleKeyB ∧
    (∀ r ∈ (hybrid_retrieve constSem constLex defaultAlpha defaultLambda defaultThreshold
        defaultK defaultTopN (runOps sampleOps) sampleKeyA "recursion").results,
      r.chunk ∈ runOps sampleOps sampleKeyA ∧ r.chunk.owner = sampleKeyA ∧
        r.chunk.owner ≠ sampleKeyB) :=
  ⟨by decide, retrieval_isolation sampleOps constSem constLex defaultAlpha defaultLambda
    defaultThreshold defaultK defaultTopN sampleKeyA sampleKeyB "recursion" (by decide)⟩

/-- Witness for C8: at the default alpha 0.7 and concrete candidate lists,
all normalized and fused scores lie in the unit interval. -/
theorem fusion_scores_unit_witness :
    (0:ℚ) ≤ defaultAlpha ∧ defaultAlpha ≤ 1 ∧
    ((∀ p ∈ minmaxNorm sampleSemC, 0 ≤ p.2 ∧ p.2 ≤ 1) ∧
     (∀ p ∈ minmaxNorm sampleLexC, 0 ≤ p.2 ∧ p.2 ≤ 1) ∧
     (∀ p ∈ fuse defaultAlpha sampleSemC sampleLexC, 0 ≤ p.2 ∧ p.2 ≤ 1)) :=
  ⟨by norm_num [defaultAlpha], by norm_num [defaultAlpha],
    fusion_scores_unit defaultAlpha sampleSemC sampleLexC (by norm_num [defaultAlpha])
      (by norm_num [defaultAlpha])⟩

theorem mem_of_head?_eq_some {α : Type} {l : List α} {a : α} (h : l.head? = some a) :
    a ∈ l := by
  cases l with
  | nil => cases h
  | cons b rest =>
    simp only [List.head?_cons, Option.some.injEq] at h
    rw [← h]
    exact List.mem_cons_self b rest

theorem mem_of_getLast?_eq_some {α : Type} {l : List α} {a : α} (h : l.getLast? = some a) :
    a ∈ l := by
  induction l with
  | nil => cases h
  | cons b rest ih =>
    cases rest with
    | nil =>
      simp only [List.getLast?_singleton, Option.some.injEq] at h
      rw [← h]
      exact List.mem_cons_self b []
    | cons d rest2 =>
      rw [List.getLast?_cons_cons] at h
      exact List.mem_cons_of_mem b (ih h)

theorem mem_of_mem_dropWhile {α : Type} (p : α → Bool) :
    ∀ l : List α, ∀ c ∈ l.dropWhile p, c ∈ l := by
  intro l
  induction l with
  | nil => intro c hc; simp at hc
  | cons a rest ih =>
    intro c hc
    rw [List.dropWhile_cons] at hc
    split at hc
    · exact List.mem_cons_of_mem a (ih c hc)
    · exact hc

theorem head?_dropWhile_not (p : Nat → Bool) :
    ∀ l : JStr, ∀ a : Nat, (l.dropWhile p).head? = some a → p a = false := by
  intro l
  induction l with
  | nil => intro a h; cases h
  | cons c rest ih =>
    intro a h
    rw [List.dropWhile_cons] at h
    split at h
    · exact ih a h
    · rename_i hpc
      simp only [List.head?_cons, Option.some.injEq] at h
      rw [← h]
      exact Bool.eq_false_iff.mpr hpc

theorem dropWhile_eq_self_of (p : Nat → Bool) (l : JStr)
    (h : ∀ a, l.head? = some a → p a = false) : l.dropWhile p = l := by
  cases l with
  | nil => rfl
  | cons c rest =>
    have hc := h c rfl
    rw [List.dropWhile_cons, if_neg]
    rw [hc]
    simp

theorem chain'_dropWhile {R : Nat → Nat → Prop} (p : Nat → Bool) :
    ∀ l : JStr, List.Chain' R l → List.Chain' R (l.dropWhile p) := by
  intro l
  induction l with
  | nil => intro h; simp
  | cons c rest ih =>
    intro h
    rw [List.dropWhile_cons]
    split
    · exact ih h.tail
    · exact h

theorem mem_of_mem_dropTrailing (p : Nat → Bool) :
    ∀ l : JStr, ∀ c ∈ dropTrailing p l, c ∈ l := by
  intro l
  induction l with
  | nil => intro c hc; simp [dropTrailing] at hc
  | cons a rest ih =>
    intro c hc
    cases hdt : dropTrailing p rest with
    | nil =>
      simp only [dropTrailing, hdt] at hc
      split at hc
      · cases hc
      · simp only [List.mem_singleton] at hc
        rw [hc]
        exact List.mem_cons_self a rest
    | cons b out =>
      simp only [dropTrailing, hdt] at hc
      rcases List.mem_cons.mp hc with h2 | h2
      · rw [h2]
        exact List.mem_cons_self a rest
      · exact List.mem_cons_of_mem a (ih c (hdt ▸ h2))

theorem head?_dropTrailing (p : Nat → Bool) :
    ∀ l : JStr, ∀ a : Nat, (dropTrailing p l).head? = some a → l.head? = some a := by
  intro l
  induction l with
  | nil => intro a h; cases h
  | cons c rest ih =>
    intro a h
    cases hdt : dropTrailing p rest with
    | nil =>
      simp only [dropTrailing, hdt] at h
      split at h
      · cases h
      · simpa using h
    | cons b out =>
      simp only [dropTrailing, hdt, List.head?_cons] at h
      simpa using h

theorem getLast?_dropTrailing_not (p : Nat → Bool) :
    ∀ l : JStr, ∀ a : Nat, (dropTrailing p l).getLast? = some a → p a = false := by
  intro l
  induction l with
  | nil => intro a h; cases h
  | cons c rest ih =>
    intro a h
    cases hdt : dropTrailing p rest with
    | nil =>
      simp only [dropTrailing, hdt] at h
      split at h
      · cases h
      · rename_i hpc
        simp only [List.getLast?_singleton, Option.some.injEq] at h
        rw [← h]
        rw [Bool.eq_false_iff]
        exact hpc
    | cons b out =>
      simp only [dropTrailing, hdt] at h
      rw [List.getLast?_cons_cons] at h
      exact ih a (hdt ▸ h)

theorem chain'_dropTrailing {R : Nat → Nat → Prop} (p : Nat → Bool) :
    ∀ l : JStr, List.Chain' R l → List.Chain' R (dropTrailing p l) := by
  intro l
  induction l with
  | nil => intro h; simpa using h
  | cons c rest ih =>
    intro h
    cases hdt : dropTrailing p rest with
    | nil =>
      simp only [dropTrailing, hdt]
      split
      · exact List.chain'_nil
      · exact List.chain'_singleton c
    | cons b out =>
      simp only [dropTrailing, hdt]
      rw [List.chain'_cons']
      constructor
      · intro y hy
        simp only [List.head?_cons, Option.mem_def, Option.some.injEq] at hy
        have hb : rest.head? = some b := head?_dropTrailing p rest b (by rw [hdt]; rfl)
        have := (List.chain'_cons'.mp h).1
        rw [← hy]
        exact this b hb
      · rw [← hdt]
        exact ih h.tail

theorem dropTrailing_eq_self_of (p : Nat → Bool) :
    ∀ l : JStr, (∀ a, l.getLast? = some a → p a = false) → dropTrailing p l = l := by
  intro l
  induction l with
  | nil => intro h; rfl
  | cons c rest ih =>
    intro h
    cases hr : rest with
    | nil =>
      subst hr
      have hpc : p c = false := h c (by simp)
      simp [dropTrailing, hpc]
    | cons b rest2 =>
      subst hr
      have ih2 := ih (fun a ha => h a (by rw [List.getLast?_cons_cons]; exact ha))
      rw [dropTrailing, ih2]

theorem toLowerCode_not_upper (c : Nat) : isUpperCode (toLowerCode c) = false := by
  unfold toLowerCode
  by_cases h : isUpperCode c = true
  · rw [if_pos h]
    simp only [isUpperCode, Bool.and_eq_true, decide_eq_true_eq] at h
    simp only [isUpperCode, Bool.and_eq_false_iff, decide_eq_false_iff_not]
    omega
  · rw [if_neg h]
    exact Bool.eq_false_iff.mpr h

theorem collapseSeps_mem :
    ∀ l : JStr, ∀ c ∈ collapseSeps l, c = 45 ∨ (c ∈ l ∧ isSepCode c = false) := by
  intro l
  induction l with
  | nil => intro c hc; simp [collapseSeps] at hc
  | cons a rest ih =>
    intro c hc
    simp only [collapseSeps] at hc
    by_cases hsep : isSepCode a = true
    · rw [if_pos hsep] at hc
      by_cases hh : (collapseSeps rest).head? = some 45
      · rw [if_pos hh] at hc
        rcases ih c hc with h | h
        · exact Or.inl h
        · exact Or.inr ⟨List.mem_cons_of_mem a h.1, h.2⟩
      · rw [if_neg hh] at hc
        rcases List.mem_cons.mp hc with h | h
        · exact Or.inl h
        · rcases ih c h with h2 | h2
          · exact Or.inl h2
          · exact Or.inr ⟨List.mem_cons_of_mem a h2.1, h2.2⟩
    · rw [if_neg hsep] at hc
      rcases List.mem_cons.mp hc with h | h
      · rw [h]
        exact Or.inr ⟨List.mem_cons_self a rest, Bool.eq_false_iff.mpr (h ▸ hsep)⟩
      · rcases ih c h with h2 | h2
        · exact Or.inl h2
        · exact Or.inr ⟨List.mem_cons_of_mem a h2.1, h2.2⟩

theorem collapseSeps_chain :
    ∀ l : JStr, List.Chain'
      (fun a b => ¬(isSepCode a = true ∧ isSepCode b = true)) (collapseSeps l) := by
  intro l
  induction l with
  | nil => simp [collapseSeps]
  | cons a rest ih =>
    simp only [collapseSeps]
    by_cases hsep : isSepCode a = true
    · rw [if_pos hsep]
      by_cases hh : (collapseSeps rest).head? = some 45
      · rw [if_pos hh]
        exact ih
      · rw [if_neg hh]
        rw [List.chain'_cons']
        refine ⟨?_, ih⟩
        intro y hy
        rintro ⟨-, hsy⟩
        have hmem : y ∈ collapseSeps rest := mem_of_head?_eq_some hy
        rcases collapseSeps_mem rest y hmem with h2 | h2
        · rw [h2] at hy
          exact hh hy
        · rw [h2.2] at hsy
          cases hsy
    · rw [if_neg hsep]
      rw [List.chain'_cons']
      refine ⟨?_, ih⟩
      intro y hy
      rintro ⟨hsa, -⟩
      exact hsep hsa

theorem collapseSeps_eq_self :
    ∀ l : JStr, (∀ c ∈ l, isSepCode c = false ∨ c = 45) →
      List.Chain' (fun a b => ¬(isSepCode a = true ∧ isSepCode b = true)) l →
      collapseSeps l = l := by
  intro l
  induction l with
  | nil => intro h1 h2; rfl
  | cons a rest ih =>
    intro h1 h2
    have ih2 : collapseSeps rest = rest :=
      ih (fun c hc => h1 c (List.mem_cons_of_mem a hc)) h2.tail
    simp only [collapseSeps, ih2]
    by_cases hsep : isSepCode a = true
    · rw [if_pos hsep]
      have ha45 : a = 45 := by
        rcases h1 a (List.mem_cons_self a rest) with h | h
        · rw [h] at hsep
          cases hsep
        · exact h
      have hhd : rest.head? ≠ some 45 := by
        intro hcon
        have hmem := (List.chain'_cons'.mp h2).1 45 hcon
        exact hmem ⟨hsep, by decide⟩
      rw [if_neg hhd, ha45]
    · rw [if_neg hsep]

theorem slugChar_of (c : Nat) (hnu : isUpperCode c = false) (hnsep : isSepCode c = false)
    (hpred : (isWordCode c || isSpaceCode c || c == 45) = true) :
    isLowerCode c = true ∨ isDigitCode c = true ∨ c = 45 := by
  simp only [isWordCode, isSepCode, isSpaceCode, isUpperCode, isLowerCode, isDigitCode,
    Bool.or_eq_true, Bool.or_eq_false_iff, Bool.and_eq_true, Bool.and_eq_false_iff,
    decide_eq_true_eq, decide_eq_false_iff_not, beq_iff_eq] at *
  omega

theorem toLowerCode_eq_self_of (c : Nat)
    (h : isLowerCode c = true ∨ isDigitCode c = true ∨ c = 45) : toLowerCode c = c := by
  have hu : isUpperCode c = false := by
    simp only [isLowerCode, isDigitCode, isUpperCode, Bool.and_eq_true,
      Bool.and_eq_false_iff, decide_eq_true_eq, decide_eq_false_iff_not] at *
    omega
  simp [toLowerCode, hu]

theorem not_space_of_slugChar (c : Nat)
    (h : isLowerCode c = true ∨ isDigitCode c = true ∨ c = 45) : isSpaceCode c = false := by
  simp only [isLowerCode, isDigitCode, isSpaceCode, Bool.and_eq_true, Bool.or_eq_false_iff,
    Bool.and_eq_false_iff, decide_eq_true_eq, decide_eq_false_iff_not] at *
  omega

theorem sep_or_45_of_slugChar (c : Nat)
    (h : isLowerCode c = true ∨ isDigitCode c = true ∨ c = 45) :
    isSepCode c = false ∨ c = 45 := by
  simp only [isLowerCode, isDigitCode, isSepCode, isSpaceCode, Bool.and_eq_true,
    Bool.or_eq_false_iff, Bool.and_eq_false_iff, decide_eq_true_eq,
    decide_eq_false_iff_not, beq_eq_false_iff_ne, ne_eq] at *
  omega

theorem pred_true_of_slugChar (c : Nat)
    (h : isLowerCode c = true ∨ isDigitCode c = true ∨ c = 45) :
    (isWordCode c || isSpaceCode c || c == 45) = true := by
  simp only [isWordCode, isSpaceCode, isUpperCode, isLowerCode, isDigitCode,
    Bool.or_eq_true, Bool.and_eq_true, decide_eq_true_eq, beq_iff_eq] at *
  omega

theorem not_95_of_slugChar (c : Nat)
    (h : isLowerCode c = true ∨ isDigitCode c = true ∨ c = 45) : c ≠ 95 := by
  simp only [isLowerCode, isDigitCode, Bool.and_eq_true, decide_eq_true_eq] at h
  omega

theorem map_eq_self_of {α : Type} (f : α → α) :
    ∀ l : List α, (∀ c ∈ l, f c = c) → l.map f = l := by
  intro l
  induction l with
  | nil => intro h; rfl
  | cons a rest ih =>
    intro h
    simp only [List.map_cons]
    rw [h a (List.mem_cons_self a rest), ih (fun c hc => h c (List.mem_cons_of_mem a hc))]

theorem slugify_chars (l : JStr) :
    ∀ c ∈ slugify l, isLowerCode c = true ∨ isDigitCode c = true ∨ c = 45 := by
  intro c hc
  simp only [slugify] at hc
  have hc2 := mem_of_mem_dropTrailing _ _ c hc
  have hc3 := mem_of_mem_dropWhile _ _ c hc2
  rcases collapseSeps_mem _ c hc3 with h | h
  · exact Or.inr (Or.inr h)
  · obtain ⟨hmem, hnsep⟩ := h
    have hpred := (List.mem_filter.mp hmem).2
    have htr := (List.mem_filter.mp hmem).1
    have hlow := mem_of_mem_dropWhile _ _ c (mem_of_mem_dropTrailing _ _ c htr)
    obtain ⟨c0, -, hce⟩ := List.mem_map.mp hlow
    have hnu : isUpperCode c = false := hce ▸ toLowerCode_not_upper c0
    exact slugChar_of c hnu hnsep hpred

theorem slugify_chain (l : JStr) :
    List.Chain' (fun a b => ¬(isSepCode a = true ∧ isSepCode b = true)) (slugify l) :=
  chain'_dropTrailing _ _ (chain'_dropWhile _ _ (collapseSeps_chain _))

theorem slugify_head_ne (l : JStr) : ∀ a, (slugify l).head? = some a → a ≠ 45 := by
  intro a h
  have h2 := head?_dropTrailing _ _ a h
  have h3 := head?_dropWhile_not _ _ a h2
  simpa using h3

theorem slugify_last_ne (l : JStr) : ∀ a, (slugify l).getLast? = some a → a ≠ 45 := by
  intro a h
  have h2 := getLast?_dropTrailing_not _ _ a h
  simpa using h2

theorem slugify_fixpoint (y : JStr)
    (hchars : ∀ c ∈ y, isLowerCode c = true ∨ isDigitCode c = true ∨ c = 45)
    (hchain : List.Chain' (fun a b => ¬(isSepCode a = true ∧ isSepCode b = true)) y)
    (hhead : ∀ a, y.head? = some a → a ≠ 45)
    (hlast : ∀ a, y.getLast? = some a → a ≠ 45) :
    slugify y = y := by
  have h1 : y.map toLowerCode = y :=
    map_eq_self_of toLowerCode y (fun c hc => toLowerCode_eq_self_of c (hchars c hc))
  have h2 : (y.map toLowerCode).dropWhile isSpaceCode = y := by
    rw [h1]
    exact dropWhile_eq_self_of isSpaceCode y (fun a ha =>
      not_space_of_slugChar a (hchars a (mem_of_head?_eq_some ha)))
  have h3 : dropTrailing isSpaceCode ((y.map toLowerCode).dropWhile isSpaceCode) = y := by
    rw [h2]
    exact dropTrailing_eq_self_of isSpaceCode y (fun a ha =>
      not_space_of_slugChar a (hchars a (mem_of_getLast?_eq_some ha)))
  have h4 : (dropTrailing isSpaceCode ((y.map toLowerCode).dropWhile isSpaceCode)).filter
      (fun c => isWordCode c || isSpaceCode c || c == 45) = y := by
    rw [h3]
    exact List.filter_eq_self.mpr (fun c hc => pred_true_of_slugChar c (hchars c hc))
  have h5 : collapseSeps ((dropTrailing isSpaceCode ((y.map toLowerCode).dropWhile
      isSpaceCode)).filter (fun c => isWordCode c || isSpaceCode c || c == 45)) = y := by
    rw [h4]
    exact collapseSeps_eq_self y (fun c hc => sep_or_45_of_slugChar c (hchars c hc)) hchain
  have h6 : (collapseSeps ((dropTrailing isSpaceCode ((y.map toLowerCode).dropWhile
      isSpaceCode)).filter (fun c => isWordCode c || isSpaceCode c || c == 45))).dropWhile
      (fun c => c == 45) = y := by
    rw [h5]
    exact dropWhile_eq_self_of _ y (fun a ha => beq_eq_false_iff_ne.mpr (hhead a ha))
  have h7 : dropTrailing (fun c => c == 45) ((collapseSeps ((dropTrailing isSpaceCode
      ((y.map toLowerCode).dropWhile isSpaceCode)).filter
      (fun c => isWordCode c || isSpaceCode c || c == 45))).dropWhile
      (fun c => c == 45)) = y := by
    rw [h6]
    exact dropTrailing_eq_self_of _ y (fun a ha => beq_eq_false_iff_ne.mpr (hlast a ha))
  exact h7

/-- C9: the frontend `slugify` that derives a course id from a course name is
idempotent, and its output contains no whitespace and no underscores, no two
consecutive hyphens, and no leading or trailing hyphen (hyphen is code point
45, underscore 95). -/
theorem slugify_idempotent (l : JStr) :
    slugify (slugify l) = slugify l ∧
    (∀ c ∈ slugify l, isSpaceCode c = false ∧ c ≠ 95) ∧
    List.Chain' (fun a b => ¬(a = 45 ∧ b = 45)) (slugify l) ∧
    (∀ a, (slugify l).head? = some a → a ≠ 45) ∧
    (∀ a, (slugify l).getLast? = some a → a ≠ 45) := by
  refine ⟨slugify_fixpoint (slugify l) (slugify_chars l) (slugify_chain l)
    (slugify_head_ne l) (slugify_last_ne l), ?_, ?_, slugify_head_ne l, slugify_last_ne l⟩
  · intro c hc
    exact ⟨not_space_of_slugChar c (slugify_chars l c hc),
      not_95_of_slugChar c (slugify_chars l c hc)⟩
  · refine (slugify_chain l).imp ?_
    intro a b hR
    rintro ⟨ha, hb⟩
    subst ha
    subst hb
    exact hR ⟨by decide, by decide⟩
